/-
Verification of the statevector-simulation core and protocol layer of the
Quantum-computing-cryptography-laboratory repository.

Complex amplitudes are represented exactly: every amplitude arising in the
circuits under study lies in the cyclotomic field Q(zeta) with
zeta = exp(i*pi/32) (a primitive 64th root of unity), since the gates involved
are H (entries +-1/sqrt 2, and sqrt 2 = zeta^8 - zeta^24), X, Y, Z, CNOT, SWAP,
RZ(pi/4), and controlled phases exp(+-i*pi/2^d) = zeta^(+-32/2^d) for d <= 5.
An element of Q(zeta) is stored as its coefficient vector in the power basis
zeta^0 .. zeta^31 (zeta^32 = -1); multiplication by zeta is the signed rotation
rot1 below.
-/
import Mathlib

namespace QuantumLab

/-- Cyc is the field Q(zeta), zeta = exp(i*pi/32), as coefficient vectors over
the power basis zeta^0..zeta^31 with the reduction zeta^32 = -1. -/
abbrev Cyc : Type := Fin 32 → ℚ

/-- Coefficient-vector constructor: a rational constant, as an element of Cyc. -/
def constC (q : ℚ) : Cyc := fun i => if i = 0 then q else 0

/-- Multiplication by zeta: coefficients rotate one slot, with the wrap-around
picking up a sign from zeta^32 = -1. -/
def rot1 (x : Cyc) : Cyc := fun i =>
  if h : (i : ℕ) = 0 then -(x ⟨31, by omega⟩) else x ⟨(i : ℕ) - 1, by omega⟩

/-- Multiplication by zeta^m (m taken mod 64, half a turn being a sign). -/
def rotN (m : ℕ) (x : Cyc) : Cyc := rot1^[m % 64] x

/-- Multiplication by 1/sqrt 2 = (zeta^8 - zeta^24)/2, as a linear operator. -/
def hmul (x : Cyc) : Cyc := (1 / 2 : ℚ) • (rotN 8 x - rotN 24 x)

/-! Basis-state indices: qubit q of an n-qubit register is bit q of the basis
index. updBit q b k is the index k with bit q forced to b. -/

/-- The index k with bit q replaced by b. -/
def updBit (q : ℕ) (b : Bool) (k : ℕ) : ℕ :=
  2 ^ (q + 1) * (k / 2 ^ (q + 1)) + ((cond b 1 0) * 2 ^ q + k % 2 ^ q)

/-! Gate operations. A GateOp is a bound gate: the tagged-variant form of the
gate applications appearing in the source circuits. The cp constructor is the
controlled-phase gate diag(1,1,1,exp(sgn * i*pi/2^d)) used by the QFT builders
(qiskit style cp(pi/2^d, c, t), cirq style CZ ** (1/2^d) and
CZPowGate(exponent = -1/2^d)); its rotation in Cyc is by zeta^(32/2^d)
(exact for d <= 5, which covers registers of up to 6 qubits). -/

inductive GateOp where
  | h (q : ℕ)
  | x (q : ℕ)
  | y (q : ℕ)
  | z (q : ℕ)
  | rz (q : ℕ)
  | cnot (c t : ℕ)
  | cp (c t : ℕ) (neg : Bool) (d : ℕ)
  | swap (a b : ℕ)
deriving DecidableEq, Repr

/-- A state of a qubit register: the amplitude vector, indexed by basis-state
index (bit q of the index is the computational-basis value of qubit q). -/
abbrev QState : Type := ℕ → Cyc

/-- Rotation amount (power of zeta) for the controlled-phase gate of distance d
and sign: exp(i*pi/2^d) = zeta^(32/2^d), and the inverse gate rotates by the
complementary amount. -/
def cpAmount (neg : Bool) (d : ℕ) : ℕ :=
  if neg then (64 - 32 / 2 ^ d) % 64 else 32 / 2 ^ d

/-- Index permutation realized by a SWAP gate: exchange bits a and b. -/
def swapBits (a b k : ℕ) : ℕ := updBit a (k.testBit b) (updBit b (k.testBit a) k)

/-- Apply one gate to an amplitude vector (left-multiplication by the gate
unitary embedded in the full space, acting as the identity elsewhere). -/
def applyOp : GateOp → QState → QState
  | .h q, s => fun k =>
      if k.testBit q then hmul (s (updBit q false k) - s (updBit q true k))
      else hmul (s (updBit q false k) + s (updBit q true k))
  | .x q, s => fun k => s (updBit q (!(k.testBit q)) k)
  | .y q, s => fun k =>
      if k.testBit q then rotN 16 (s (updBit q false k))
      else rotN 48 (s (updBit q true k))
  | .z q, s => fun k => if k.testBit q then rotN 32 (s k) else s k
  | .rz q, s => fun k => if k.testBit q then rotN 4 (s k) else rotN 60 (s k)
  | .cnot c t, s => fun k =>
      if k.testBit c then s (updBit t (!(k.testBit t)) k) else s k
  | .cp c t neg d, s => fun k =>
      if k.testBit c && k.testBit t then rotN (cpAmount neg d) (s k) else s k
  | .swap a b, s => fun k => s (swapBits a b k)

/-- Apply a whole gate list in order (pure unitary evolution, no measurement). -/
def applyGates (l : List GateOp) (s : QState) : QState :=
  l.foldl (fun s g => applyOp g s) s

/-- The computational basis state with amplitude 1 at index j. -/
def basisState (j : ℕ) : QState := fun k => if k = j then constC 1 else 0

/-! QFT circuit constructions, bound gate lists exactly as the source builds
them. -/

/-- Controlled-phase ladder targeting qubit m from qubits 0..r-1: the gates
cp(pi/2^(m-j), j, m) for j in range(r), as emitted (with r = m) by the qiskit
style qft_rotations loop of part_000 quantum_fourier_transform. -/
def pGroupAux (r m : ℕ) : List GateOp :=
  (List.range r).map (fun j => .cp j m false (m - j))

/-- Inverse controlled-phase ladder: CZPowGate(exponent = -1/2^(m-j)) applied
to (qubits j, qubit m) for j in range(r), as emitted (with r = m) by the inner
loop of part_000 inverse_qft. -/
def ipGroupAux (r m : ℕ) : List GateOp :=
  (List.range r).map (fun j => .cp j m true (m - j))

/-- Rotation part of the standard (descending) QFT: qft_rotations in the
part_000 qiskit section recurses as h(n-1); cp(pi/2^(n-1-j), j, n-1) for
j in range(n-1); qft_rotations(n-1). -/
def qftRot : ℕ → List GateOp
  | 0 => []
  | m + 1 => .h m :: (pGroupAux m m ++ qftRot m)

/-- Rotation part of part_000 inverse_qft: for i in range(n): the inverse
phase ladder for j in range(i), then H(i). -/
def invQftRot : ℕ → List GateOp
  | 0 => []
  | m + 1 => invQftRot m ++ (ipGroupAux m m ++ [.h m])

/-- Qubit-order reversal: SWAP(i, n-1-i) for i in range(n // 2), shared by all
the QFT builders in the repository. -/
def swapsL (n : ℕ) : List GateOp :=
  (List.range (n / 2)).map (fun i => .swap i (n - 1 - i))

/-- The standard QFT circuit on n qubits of part_000
QiskitQuantumLab.quantum_fourier_transform: qft_rotations then final swaps. -/
def qftStdGates (n : ℕ) : List GateOp := qftRot n ++ swapsL n

/-- part_000 inverse_qft applied to the n counting qubits: the swaps first,
then ascending inverse rotations. -/
def invQftGates (n : ℕ) : List GateOp := swapsL n ++ invQftRot n

/-- One outer iteration of the ascending QFT of cirqa quantum.py _apply_qft
(and quantum_fourier_transform there): H(q_i) then
CZ(q_j, q_i) ** (1/2^(j-i)) for j in range(i+1, n). -/
def cirqaGroup (i n : ℕ) : List GateOp :=
  .h i :: (List.range (n - (i + 1))).map (fun o => .cp (i + 1 + o) i false (o + 1))

/-- The cirqa quantum.py _apply_qft circuit: ascending rotation groups, then
the final swaps. -/
def cirqaQft (n : ℕ) : List GateOp :=
  ((List.range n).map (fun i => cirqaGroup i n)).flatten ++ swapsL n

/-! Exact complex arithmetic on Cyc for concrete magnitude computations. -/

/-- Coefficient of zeta^n for arbitrary integer exponent n, reduced into the
power basis via zeta^64 = 1 and zeta^32 = -1. -/
def zAt (y : Cyc) (n : ℤ) : ℚ :=
  if h : n.emod 64 < 32 then
    y ⟨(n.emod 64).toNat, by
      have h0 : 0 ≤ n.emod 64 := Int.emod_nonneg n (by norm_num)
      omega⟩
  else
    -(y ⟨(n.emod 64 - 32).toNat, by
      have h0 : 0 ≤ n.emod 64 := Int.emod_nonneg n (by norm_num)
      have h1 : n.emod 64 < 64 := Int.emod_lt_of_pos n (by norm_num)
      omega⟩)

/-- Full multiplication in Q(zeta): the negacyclic convolution of coefficient
vectors. Used only for concrete magnitude computations. -/
def mulC (x y : Cyc) : Cyc := fun i => ∑ j : Fin 32, x j * zAt y ((i : ℤ) - (j : ℤ))

/-- Complex conjugation: zeta conjugates to zeta^(-1) = -zeta^31. -/
def conjC (x : Cyc) : Cyc := fun i =>
  if h : (i : ℕ) = 0 then x 0
  else -(x ⟨32 - (i : ℕ), by
    have := i.isLt
    omega⟩)

/-- Squared magnitude of an amplitude, as an element of Q(zeta): x * conj x.
For every amplitude arising in this development this is a rational constant
(asserted explicitly where used). -/
def normSqC (x : Cyc) : Cyc := mulC x (conjC x)

/-- Born weight of an outcome set: sum of squared amplitude magnitudes over
the basis indices of an n-qubit register satisfying the predicate. -/
def bornWeight (s : QState) (n : ℕ) (p : ℕ → Bool) : Cyc :=
  ∑ k ∈ Finset.range (2 ^ n), if p k then normSqC (s k) else 0

/-! Protocol circuits. -/

/-- part_000 CirqQuantumLab.quantum_teleportation circuit, with qubit indices
message = 0, alice = 1, bob = 2: X(message) [prepare the |1> message state],
H(alice), CNOT(alice, bob) [entangled pair], CNOT(message, alice), H(message)
[Bell measurement basis change]. Alice's qubits are then measured, and bob is
measured immediately afterwards: no classically-conditioned correction is
applied to bob before its measurement. -/
def teleportGates : List GateOp :=
  [.x 0, .h 1, .cnot 1 2, .cnot 0 1, .h 0]

/-- The pre-measurement state of the teleportation circuit. -/
def teleportState : QState := applyGates teleportGates (basisState 0)

/-- Per-trial BB84 circuit on one qubit, as built by bb84_key_distribution in
qiskit quantum.py (and identically in cirqa quantum.py and part_000): X if the
sender bit is 1, H if the sender basis is diagonal, H if the receiver basis is
diagonal, then measure. -/
def bb84Circuit (bit basis bobBasis : Bool) : List GateOp :=
  (if bit then [GateOp.x 0] else []) ++ (if basis then [GateOp.h 0] else [])
    ++ (if bobBasis then [GateOp.h 0] else [])

/-- Probability of measuring outcome index j, as the rational constant term of
the exact squared magnitude (the squared magnitudes arising here are rational
constants). -/
def outcomeProb (s : QState) (j : ℕ) : ℚ := normSqC (s j) 0

/-- One Born-rule draw of a single-qubit measurement from the inverse-CDF
transform of the uniform sample u in [0,1): outcome 0 when u < P(0). -/
def sampleBit (s : QState) (u : ℚ) : Bool := if u < outcomeProb s 0 then false else true

/-- Bob's measurement results over all BB84 trials (shots = 1 per trial, so
the measured bit is the single sample), indexed as in the source loop
for i in range(len(alice_bits)). -/
def bb84Measure (aliceBits aliceBases bobBases : List Bool) (us : List ℚ) : List Bool :=
  (List.range aliceBits.length).map (fun i =>
    sampleBit
      (applyGates
        (bb84Circuit (aliceBits.getD i false) (aliceBases.getD i false)
          (bobBases.getD i false))
        (basisState 0))
      (us.getD i 0))

/-- Basis reconciliation of bb84_key_distribution in qiskit quantum.py: keep
the sender bit at every index where the bases agree. -/
def bb84Sift (aliceBits aliceBases bobBases : List Bool) : List Bool :=
  (List.range aliceBits.length).filterMap (fun i =>
    if aliceBases.getD i false = bobBases.getD i false
    then some (aliceBits.getD i false) else none)

/-- Result record of bb84_key_distribution in qiskit quantum.py (the fields
the claims inspect; qasm text and hex rendering are omitted). -/
structure BB84Result where
  keyLength : ℕ
  keyBinary : List Bool
  errorRate : ℚ
  efficiency : ℚ
  securityHigh : Bool
deriving DecidableEq, Repr

/-- bb84_key_distribution of qiskit quantum.py: the random draws of the source
(random.randint for bits and bases, the per-shot measurement sample, and the
random.uniform(0, 0.05) draw r used verbatim as the reported error rate) are
passed in explicitly. The measured results bob_measurements are computed (see
bb84Measure) but the reported error_rate is the fabricated draw r, not a
comparison with the measurements. -/
def bb84_key_distribution (keyLength : ℕ) (aliceBits aliceBases bobBases : List Bool)
    (us : List ℚ) (r : ℚ) : BB84Result :=
  let _measurements := bb84Measure aliceBits aliceBases bobBases us
  let shared := bb84Sift aliceBits aliceBases bobBases
  let finalKey := shared.take keyLength
  { keyLength := finalKey.length
    keyBinary := finalKey
    errorRate := r
    efficiency := (finalKey.length : ℚ) / (aliceBits.length : ℚ)
    securityHigh := decide (r < 11 / 100) }

/-! Generic circuit construction from symbolic gate tokens
(create_quantum_circuit in qiskit quantum.py, and identically in
cirqa quantum.py and qsharp quantum lab.py). -/

/-- The gate op bound from the token at position i of the token list, for an
n-qubit register: the if/elif chain of create_quantum_circuit. A token outside
the supported set binds nothing (none): the chain has no else branch. -/
def tokenOp (numQubits : ℕ) (i : ℕ) (g : String) : Option GateOp :=
  let q := i % numQubits
  if g.toUpper = "H" then some (.h q)
  else if g.toUpper = "X" then some (.x q)
  else if g.toUpper = "Y" then some (.y q)
  else if g.toUpper = "Z" then some (.z q)
  else if g.toUpper = "CNOT" ∧ 1 < numQubits then some (.cnot q ((q + 1) % numQubits))
  else if g.toUpper = "RZ" then some (.rz q)
  else none

/-- All gate ops of a circuit built from a token list: tokens are enumerated
and bound in order, and unsupported tokens are silently skipped. -/
def buildOps (numQubits : ℕ) (gates : List String) : List GateOp :=
  gates.enum.filterMap (fun p => tokenOp numQubits p.1 p.2)

/-- A circuit stored in the lab registry (self.circuits). -/
structure StoredCircuit where
  id : ℕ
  name : String
  ops : List GateOp
  numQubits : ℕ
  gates : List String
deriving DecidableEq, Repr

/-- The dict returned by create_quantum_circuit (qasm text and depth are
omitted). -/
structure CircuitResult where
  id : ℕ
  name : String
  numQubits : ℕ
  gates : List String
deriving DecidableEq, Repr

/-- create_quantum_circuit of qiskit quantum.py: build the ops from the
tokens, assign id = len(self.circuits) + 1, store the circuit, and return the
result dict. There is no raise path: the function is total. -/
def create_quantum_circuit (circuits : List StoredCircuit) (name : String)
    (numQubits : ℕ) (gates : List String) : List StoredCircuit × CircuitResult :=
  let ops := buildOps numQubits gates
  let cid := circuits.length + 1
  (circuits ++ [⟨cid, name, ops, numQubits, gates⟩], ⟨cid, name, numQubits, gates⟩)

/-- Gate ops of build_quantum_circuit in quantum algorithms/qiskit
implementation.py, which has its own fixed wiring (3 qubits). -/
inductive QcOp where
  | h (q : ℕ)
  | x (q : ℕ)
  | y (q : ℕ)
  | z (q : ℕ)
  | cnot (c t : ℕ)
  | rz (q : ℕ)
  | ry (q : ℕ)
  | measureAll
deriving DecidableEq, Repr

/-- build_quantum_circuit of qiskit implementation.py: every single-qubit
token is applied to qubit 0 and every CNOT to (0, 1), regardless of the token
position; a Measure token triggers measure_all. -/
def build_quantum_circuit (gates : List String) : List QcOp :=
  gates.filterMap (fun g =>
    if g = "H" then some (.h 0)
    else if g = "X" then some (.x 0)
    else if g = "Y" then some (.y 0)
    else if g = "Z" then some (.z 0)
    else if g = "CNOT" then some (.cnot 0 1)
    else if g = "RZ" then some (.rz 0)
    else if g = "RY" then some (.ry 0)
    else if g = "Measure" then some (.measureAll)
    else none)

/-! Shot sampling and histograms. -/

/-- Bitstring rendering of a list of measured bits. -/
def bitsToStr (bs : List Bool) : String :=
  String.mk (bs.map (fun b => if b then '1' else '0'))

/-- The bitstring of basis index k over an n-qubit register in cirq
measurement-row order (qubit 0 first). -/
def toBitString (n k : ℕ) : String :=
  bitsToStr ((List.range n).map (fun q => k.testBit q))

/-- Cumulative Born probability of the outcomes below j. -/
def cumulProb (s : QState) (j : ℕ) : ℚ :=
  ((List.range j).map (fun k => outcomeProb s k)).sum

/-- One Born-rule draw over the 2^n outcomes of an n-qubit register by the
inverse-CDF transform of the uniform sample u. -/
def sampleIndex (n : ℕ) (s : QState) (u : ℚ) : ℕ :=
  (((List.range (2 ^ n)).find? (fun j => decide (u < cumulProb s (j + 1)))).getD
    (2 ^ n - 1))

/-- One step of histogram building: counts[bitstring] = counts.get(bitstring,
0) + 1 on a dict kept in insertion order, as in execute_circuit of
cirqa quantum.py. -/
def bump : List (String × ℕ) → String → List (String × ℕ)
  | [], s => [(s, 1)]
  | p :: t, s => if p.1 = s then (p.1, p.2 + 1) :: t else p :: bump t s

/-- Histogram of a sample sequence. -/
def buildCounts (xs : List String) : List (String × ℕ) := xs.foldl bump []

/-- Sum of all histogram counts. -/
def sumVals (l : List (String × ℕ)) : ℕ := (l.map (fun p => p.2)).sum

/-- Execution result of execute_circuit (statevector omitted). -/
structure ExecResult where
  counts : List (String × ℕ)
  probabilities : List (String × ℚ)

/-- execute_circuit of cirqa quantum.py: run the stored circuit for
`repetitions` shots (each shot one Born draw from the fixed evolved state,
with the simulator's random stream passed in as us), then build the counts
dict from the measurement rows. -/
def execute_circuit (ops : List GateOp) (numQubits repetitions : ℕ) (us : ℕ → ℚ) :
    ExecResult :=
  let st := applyGates ops (basisState 0)
  let samples := (List.range repetitions).map
    (fun t => toBitString numQubits (sampleIndex numQubits st (us t)))
  let counts := buildCounts samples
  { counts := counts
    probabilities := counts.map (fun p => (p.1, (p.2 : ℚ) / (repetitions : ℚ))) }

/-- One shot of the simplified classical simulation in
QSharpQuantumLab.execute_circuit: a list of classical bits, H replaced by a
coin flip from the rng, X a flip, CNOT a conditional flip. -/
def qsharpShot (gates : List String) (numQubits : ℕ) (rand : ℕ → Bool) : List Bool :=
  gates.enum.foldl (fun st p =>
    let qubitIdx := p.1 % numQubits
    if p.2.toUpper = "H" then st.set qubitIdx (rand p.1)
    else if p.2.toUpper = "X" then st.set qubitIdx (!(st.getD qubitIdx false))
    else if p.2.toUpper = "CNOT" ∧ 1 < numQubits then
      let control := qubitIdx
      let target := (qubitIdx + 1) % numQubits
      if st.getD control false then st.set target (!(st.getD target false)) else st
    else st)
    (List.replicate numQubits false)

/-- QSharpQuantumLab.execute_circuit histogram: one simplified-simulation
bitstring per shot, counted into a dict. -/
def qsharp_execute_circuit (gates : List String) (numQubits shots : ℕ)
    (rand : ℕ → ℕ → Bool) : List (String × ℕ) :=
  buildCounts ((List.range shots).map
    (fun t => bitsToStr (qsharpShot gates numQubits (rand t))))

/-! Most-likely-outcome selection. -/

/-- Python max(counts, key=counts.get) over a dict in insertion order: keep
the current best, replacing it only on a strictly greater value, so the first
key attaining the maximum wins. -/
def pyMaxAux (best : String × ℕ) : List (String × ℕ) → String × ℕ
  | [] => best
  | p :: t => pyMaxAux (if best.2 < p.2 then p else best) t

/-- The reported most-likely outcome, as computed by
max(counts, key=counts.get) in part_000 grovers_algorithm and quantum_walk. -/
def pyMaxByValue : List (String × ℕ) → Option String
  | [] => none
  | p :: t => some (pyMaxAux p t).1

/-- Largest count in a histogram. -/
def maxVal (l : List (String × ℕ)) : ℕ := (l.map (fun p => p.2)).foldr max 0

/-- Modelled from the spec: the tie-break the specification prescribes, the
lexicographically smallest bitstring among those attaining the maximum count
(no such selection exists in the source). -/
def lexMinAmongMax (l : List (String × ℕ)) : Option String :=
  match (l.filter (fun p => decide (p.2 = maxVal l))).map (fun p => p.1) with
  | [] => none
  | s :: t => some (t.foldl (fun a b => if b < a then b else a) s)

/-! The QuantumInterface fallback wrappers of qsharp quantum lab.py. -/

/-- QuantumInterface.create_bell_state: the backend call either returns a pair
or raises; the wrapper catches any exception, prints it, and returns
(random.randint(0,1), random.randint(0,1)) instead of re-raising. -/
def interface_create_bell_state (backend : Except String (Bool × Bool))
    (r1 r2 : Bool) : Bool × Bool :=
  match backend with
  | .ok v => v
  | .error _ => (r1, r2)

/-- QuantumInterface.bb84_key_distribution: on any backend exception, returns
a random key of key_length // 2 bits and a random error rate drawn from
uniform(0, 5) instead of re-raising. -/
def interface_bb84 (keyLength : ℕ) (backend : Except String (List Bool × ℚ))
    (rngKey : List Bool) (rngRate : ℚ) : List Bool × ℚ :=
  match backend with
  | .ok v => v
  | .error _ => (rngKey.take (keyLength / 2), rngRate)

/-! Quantum random number generation. -/

/-- Integer value of a big-endian bit list, as int(s, 2) computes it. -/
def parseBinL (bs : List Bool) : ℕ :=
  bs.foldl (fun acc b => 2 * acc + cond b 1 0) 0

/-- Integer value of a bitstring, as int(s, 2) computes it. -/
def parseBinS (s : String) : ℕ :=
  s.toList.foldl (fun acc c => 2 * acc + (if c = '1' then 1 else 0)) 0

/-- Uppercase hexadecimal rendering, as hex(n)[2:].upper() computes it. -/
def toHexUpper (n : ℕ) : String :=
  String.mk ((Nat.toDigits 16 n).map Char.toUpper)

/-- The dict returned by the quantum random generators. -/
structure QRNGResult where
  binary : String
  decimal : ℕ
  hex : String
deriving DecidableEq, Repr

/-- The H-on-every-qubit circuit of the quantum random generators. -/
def qrgCircuit (numBits : ℕ) : List GateOp :=
  (List.range numBits).map (fun i => GateOp.h i)

/-- quantum_random_generator of part_000 QiskitQuantumLab: num_bits qubits
each given H and measured once; the whole measured bitstring is the binary
field, its base-2 value the decimal field, and that value in upper-case hex
the hex field. The measurement outcome is the bit list drawn by the
simulator. -/
def quantum_random_generator (measured : List Bool) : QRNGResult :=
  { binary := bitsToStr measured
    decimal := parseBinL measured
    hex := toHexUpper (parseBinL measured) }

/-- The while len(binary) < num_bits: binary += binary loop of
quantum_random_generator in qiskit implementation.py (fuel-bounded; the fuel
equals the target, which suffices for a nonempty start). -/
def extendDupL (s : List Bool) (target : ℕ) : ℕ → List Bool
  | 0 => s
  | f + 1 => if s.length < target then extendDupL (s ++ s) target f else s

/-- quantum_random_generator of qiskit implementation.py: only
min(num_bits, 32) qubits are allocated and measured; the measured bitstring
is extended to num_bits characters by self-duplication, and the decimal field
is parsed from only the first 32 characters whenever the bitstring has at
least 32. -/
def quantum_random_generator_capped (numBits : ℕ) (measured : List Bool) :
    QRNGResult :=
  let b1 := extendDupL measured numBits numBits
  let b := b1.take numBits
  let decimal := if 32 ≤ b.length then parseBinL (b.take 32) else parseBinL b
  { binary := bitsToStr b
    decimal := decimal
    hex := toHexUpper decimal }

/-! Shor demonstration: the classical trial-division core of shors_algorithm
in qiskit implementation.py. -/

/-- The while N % i == 0 inner loop: divide out the factor i, collecting one
copy per division (fuel-bounded by the starting value). -/
def divOut (i : ℕ) : ℕ → ℕ → List ℕ × ℕ
  | 0, n => ([], n)
  | f + 1, n =>
    if n % i = 0 then
      let r := divOut i f (n / i)
      (i :: r.1, r.2)
    else ([], n)

/-- The for i in range(2, bound + 1) outer loop of the trial division, with
fuel = number of remaining values of i. -/
def tdLoop : ℕ → ℕ → ℕ → List ℕ × ℕ
  | 0, _, n => ([], n)
  | f + 1, i, n =>
    let d := divOut i n n
    let rest := tdLoop f (i + 1) d.2
    (d.1 ++ rest.1, rest.2)

/-- shors_algorithm of qiskit implementation.py: N < 2 returns an empty factor
list; otherwise trial division by i = 2 .. int(sqrt(N)), appending the
remaining cofactor when it exceeds 1. (int(np.sqrt(N)) is modelled as the
exact Nat.sqrt.) -/
def shors_algorithm (N : ℤ) : List ℕ :=
  if N < 2 then []
  else
    let n := N.toNat
    let r := tdLoop (Nat.sqrt n - 1) 2 n
    if 1 < r.2 then r.1 ++ [r.2] else r.1

theorem rot1_add (x y : Cyc) : rot1 (x + y) = rot1 x + rot1 y := by
  funext i
  by_cases h : (i : ℕ) = 0 <;> simp [rot1, h] <;> ring

theorem rot1_iterate_add (k : ℕ) (x y : Cyc) :
    rot1^[k] (x + y) = rot1^[k] x + rot1^[k] y := by
  induction k generalizing x y with
  | zero => rfl
  | succ k ih =>
    rw [Function.iterate_succ_apply, Function.iterate_succ_apply,
      Function.iterate_succ_apply, rot1_add, ih]

theorem rot1_smul (c : ℚ) (x : Cyc) : rot1 (c • x) = c • rot1 x := by
  funext i
  by_cases h : (i : ℕ) = 0 <;> simp [rot1, h]

theorem rot1_iterate_smul (k : ℕ) (c : ℚ) (x : Cyc) :
    rot1^[k] (c • x) = c • rot1^[k] x := by
  induction k generalizing x with
  | zero => rfl
  | succ k ih =>
    rw [Function.iterate_succ_apply, Function.iterate_succ_apply, rot1_smul, ih]

/-- Closed form for iterated rotation, for k at most 32: the coefficient at
slot j comes from slot (j + 32 - k) mod 32, negated exactly when the slot
wrapped past zeta^32 = -1. -/
theorem rot1_iterate_formula :
    ∀ k : ℕ, k ≤ 32 → ∀ (x : Cyc) (j : ℕ) (hj : j < 32),
    (rot1^[k] x) ⟨j, hj⟩ =
      if j < k then -(x ⟨(j + 32 - k) % 32, by omega⟩)
      else x ⟨(j + 32 - k) % 32, by omega⟩ := by
  intro k
  induction k with
  | zero =>
    intro _ x j hj
    rw [if_neg (by omega)]
    have hidx : (⟨(j + 32 - 0) % 32, by omega⟩ : Fin 32) = ⟨j, hj⟩ := by
      apply Fin.ext
      show (j + 32 - 0) % 32 = j
      omega
    rw [hidx]
    rfl
  | succ k ih =>
    intro hk x j hj
    rw [Function.iterate_succ_apply']
    by_cases h0 : j = 0
    · subst h0
      have hstep : rot1 (rot1^[k] x) ⟨0, hj⟩ = -((rot1^[k] x) ⟨31, by omega⟩) := rfl
      rw [hstep, ih (by omega) x 31 (by omega)]
      rw [if_neg (by omega : ¬ (31 < k)), if_pos (by omega : 0 < k + 1)]
      have hidx := congrArg x (Fin.ext
        (by omega : (31 + 32 - k) % 32 = (0 + 32 - (k + 1)) % 32) :
        (⟨(31 + 32 - k) % 32, by omega⟩ : Fin 32) = ⟨(0 + 32 - (k + 1)) % 32, by omega⟩)
      rw [hidx]
    · have hstep : rot1 (rot1^[k] x) ⟨j, hj⟩ = (rot1^[k] x) ⟨j - 1, by omega⟩ := by
        rw [rot1]
        exact dif_neg h0
      rw [hstep, ih (by omega) x (j - 1) (by omega)]
      have hidx := congrArg x (Fin.ext
        (by omega : (j - 1 + 32 - k) % 32 = (j + 32 - (k + 1)) % 32) :
        (⟨(j - 1 + 32 - k) % 32, by omega⟩ : Fin 32) = ⟨(j + 32 - (k + 1)) % 32, by omega⟩)
      by_cases hik : j - 1 < k
      · rw [if_pos hik, if_pos (by omega : j < k + 1), hidx]
      · rw [if_neg hik, if_neg (by omega : ¬ (j < k + 1)), hidx]

theorem rot1_iterate_32 (x : Cyc) : rot1^[32] x = -x := by
  funext i
  rcases i with ⟨j, hj⟩
  rw [rot1_iterate_formula 32 le_rfl x j hj, if_pos hj]
  have hidx : (⟨(j + 32 - 32) % 32, by omega⟩ : Fin 32) = ⟨j, hj⟩ := by
    apply Fin.ext
    show (j + 32 - 32) % 32 = j
    omega
  rw [hidx]
  rfl

theorem rot1_iterate_64 (x : Cyc) : rot1^[64] x = x := by
  have h : (64 : ℕ) = 32 + 32 := rfl
  rw [h, Function.iterate_add_apply, rot1_iterate_32, rot1_iterate_32, neg_neg]

theorem rot1_iterate_64_mul (d r : ℕ) (x : Cyc) :
    rot1^[64 * d + r] x = rot1^[r] x := by
  induction d with
  | zero => simp
  | succ d ih =>
    have h : 64 * (d + 1) + r = (64 * d + r) + 64 := by ring
    rw [h, Function.iterate_add_apply, rot1_iterate_64, ih]

theorem rot1_iterate_mod (k : ℕ) (x : Cyc) : rot1^[k] x = rot1^[k % 64] x := by
  conv_lhs => rw [← Nat.div_add_mod k 64]
  exact rot1_iterate_64_mul _ _ x

/-- Rotations compose additively: zeta^a * (zeta^b * x) = zeta^(a+b) * x. -/
theorem rotN_rotN (a b : ℕ) (x : Cyc) : rotN a (rotN b x) = rotN (a + b) x := by
  unfold rotN
  rw [← Function.iterate_add_apply, rot1_iterate_mod (a % 64 + b % 64)]
  congr 1
  omega

theorem rotN_add (m : ℕ) (x y : Cyc) : rotN m (x + y) = rotN m x + rotN m y :=
  rot1_iterate_add _ x y

theorem rotN_smul (m : ℕ) (c : ℚ) (x : Cyc) : rotN m (c • x) = c • rotN m x :=
  rot1_iterate_smul _ c x

theorem rotN_sub (m : ℕ) (x y : Cyc) : rotN m (x - y) = rotN m x - rotN m y := by
  have h := rotN_add m (x - y) y
  rw [sub_add_cancel] at h
  rw [h]; abel

theorem rotN_zero_eq (x : Cyc) : rotN 0 x = x := rfl

theorem rotN_64 (x : Cyc) : rotN 64 x = x := by
  unfold rotN; simp

theorem rotN_32 (x : Cyc) : rotN 32 x = -x := by
  unfold rotN
  rw [Nat.mod_eq_of_lt (by omega)]
  exact rot1_iterate_32 x

theorem hmul_add (x y : Cyc) : hmul (x + y) = hmul x + hmul y := by
  unfold hmul
  rw [rotN_add, rotN_add]
  rw [← smul_add]
  congr 1
  abel

theorem rotN_neg (m : ℕ) (x : Cyc) : rotN m (-x) = -(rotN m x) := by
  have h := rotN_smul m (-1 : ℚ) x
  rw [neg_smul, one_smul, neg_smul, one_smul] at h
  exact h

theorem rotN_48 (x : Cyc) : rotN 48 x = -(rotN 16 x) := by
  have h1 : rotN 16 (rotN 32 x) = rotN 48 x := rotN_rotN 16 32 x
  rw [rotN_32, rotN_neg] at h1
  exact h1.symm

theorem hmul_hmul (x : Cyc) : hmul (hmul x) = (1 / 2 : ℚ) • x := by
  unfold hmul
  rw [rotN_smul, rotN_smul, rotN_sub, rotN_sub]
  have e8 : rotN 8 (rotN 8 x) = rotN 16 x := by
    rw [rotN_rotN]
  have e32a : rotN 8 (rotN 24 x) = -x := by
    rw [rotN_rotN]
    exact rotN_32 x
  have e32b : rotN 24 (rotN 8 x) = -x := by
    rw [rotN_rotN]
    exact rotN_32 x
  have e48 : rotN 24 (rotN 24 x) = -(rotN 16 x) := by
    rw [rotN_rotN]
    exact rotN_48 x
  rw [e8, e32a, e32b, e48]
  funext i
  simp [Pi.smul_apply, Pi.sub_apply, Pi.add_apply, Pi.neg_apply]
  ring

theorem hmul_sub (x y : Cyc) : hmul (x - y) = hmul x - hmul y := by
  unfold hmul
  rw [rotN_sub, rotN_sub]
  funext i
  simp [Pi.smul_apply, Pi.sub_apply]
  ring

theorem testBit_updBit (q j : ℕ) (b : Bool) (k : ℕ) :
    (updBit q b k).testBit j = if j = q then b else k.testBit j := by
  unfold updBit
  have hb : (cond b 1 0) * 2 ^ q + k % 2 ^ q < 2 ^ (q + 1) := by
    have h1 : k % 2 ^ q < 2 ^ q := Nat.mod_lt _ (Nat.two_pow_pos q)
    have h2 : (cond b 1 0) ≤ 1 := by cases b <;> simp
    have h3 : (cond b 1 0) * 2 ^ q ≤ 2 ^ q := by
      calc (cond b 1 0) * 2 ^ q ≤ 1 * 2 ^ q := Nat.mul_le_mul_right _ h2
      _ = 2 ^ q := Nat.one_mul _
    have h4 : 2 ^ (q + 1) = 2 ^ q + 2 ^ q := by rw [Nat.pow_succ]; omega
    omega
  rw [Nat.testBit_mul_pow_two_add _ hb]
  by_cases hj : j < q + 1
  · rw [if_pos hj]
    have hinner : (cond b 1 0) * 2 ^ q + k % 2 ^ q = 2 ^ q * (cond b 1 0) + k % 2 ^ q := by
      ring
    rw [hinner, Nat.testBit_mul_pow_two_add _ (Nat.mod_lt _ (Nat.two_pow_pos q))]
    by_cases hjq : j < q
    · rw [if_pos hjq, if_neg (by omega)]
      simp [Nat.testBit_mod_two_pow, hjq]
    · have hjeq : j = q := by omega
      subst hjeq
      rw [if_neg (by omega), if_pos rfl]
      simp only [Nat.sub_self]
      cases b <;> simp
  · rw [if_neg hj, if_neg (by omega)]
    have hdiv : k / 2 ^ (q + 1) = k >>> (q + 1) := (Nat.shiftRight_eq_div_pow k (q + 1)).symm
    rw [hdiv, Nat.testBit_shiftRight]
    congr 1
    omega

theorem updBit_of_testBit (q : ℕ) (k : ℕ) : updBit q (k.testBit q) k = k := by
  apply Nat.eq_of_testBit_eq
  intro j
  rw [testBit_updBit]
  by_cases hj : j = q
  · subst hj; rw [if_pos rfl]
  · rw [if_neg hj]

theorem updBit_updBit_same (q : ℕ) (b b' : Bool) (k : ℕ) :
    updBit q b (updBit q b' k) = updBit q b k := by
  apply Nat.eq_of_testBit_eq
  intro j
  rw [testBit_updBit, testBit_updBit, testBit_updBit]
  by_cases hj : j = q
  · rw [if_pos hj, if_pos hj]
  · rw [if_neg hj, if_neg hj, if_neg hj]

theorem updBit_comm {p q : ℕ} (hpq : p ≠ q) (a b : Bool) (k : ℕ) :
    updBit p a (updBit q b k) = updBit q b (updBit p a k) := by
  apply Nat.eq_of_testBit_eq
  intro j
  rw [testBit_updBit, testBit_updBit, testBit_updBit, testBit_updBit]
  by_cases hp : j = p
  · rw [if_pos hp, if_neg (by omega), if_pos hp]
  · rw [if_neg hp]
    by_cases hq : j = q
    · rw [if_pos hq, if_pos hq]
    · rw [if_neg hq, if_neg hq, if_neg hp]

theorem testBit_updBit_self (q : ℕ) (b : Bool) (k : ℕ) :
    (updBit q b k).testBit q = b := by
  rw [testBit_updBit, if_pos rfl]

theorem testBit_updBit_ne {q j : ℕ} (h : j ≠ q) (b : Bool) (k : ℕ) :
    (updBit q b k).testBit j = k.testBit j := by
  rw [testBit_updBit, if_neg h]

theorem applyGates_nil (s : QState) : applyGates [] s = s := rfl

theorem applyGates_cons (g : GateOp) (l : List GateOp) (s : QState) :
    applyGates (g :: l) s = applyGates l (applyOp g s) := rfl

theorem applyGates_append (l1 l2 : List GateOp) (s : QState) :
    applyGates (l1 ++ l2) s = applyGates l2 (applyGates l1 s) :=
  List.foldl_append _ _ _ _

/-! Algebraic facts about individual gates, used for the QFT round-trip. -/

theorem rotN_mod (m : ℕ) (x : Cyc) : rotN m x = rotN (m % 64) x := by
  unfold rotN
  congr 1
  omega

theorem applyOp_h_h (q : ℕ) (s : QState) :
    applyOp (.h q) (applyOp (.h q) s) = s := by
  funext k
  show applyOp (.h q) (applyOp (.h q) s) k = s k
  have hk0 : (updBit q false k).testBit q = false := testBit_updBit_self q false k
  have hk1 : (updBit q true k).testBit q = true := testBit_updBit_self q true k
  have e00 : updBit q false (updBit q false k) = updBit q false k :=
    updBit_updBit_same q false false k
  have e01 : updBit q true (updBit q false k) = updBit q true k :=
    updBit_updBit_same q true false k
  have e10 : updBit q false (updBit q true k) = updBit q false k :=
    updBit_updBit_same q false true k
  have e11 : updBit q true (updBit q true k) = updBit q true k :=
    updBit_updBit_same q true true k
  have inner0 : applyOp (.h q) s (updBit q false k) =
      hmul (s (updBit q false k) + s (updBit q true k)) := by
    simp [applyOp, hk0, e00, e01]
  have inner1 : applyOp (.h q) s (updBit q true k) =
      hmul (s (updBit q false k) - s (updBit q true k)) := by
    simp [applyOp, hk1, e10, e11]
  by_cases hb : k.testBit q
  · have hkeq : updBit q true k = k := by
      conv_rhs => rw [← updBit_of_testBit q k]
      rw [hb]
    have outer : applyOp (.h q) (applyOp (.h q) s) k =
        hmul (applyOp (.h q) s (updBit q false k) - applyOp (.h q) s (updBit q true k)) := by
      simp [applyOp, hb]
    rw [outer, inner0, inner1, hmul_sub, hmul_hmul, hmul_hmul, hkeq]
    funext i
    simp [Pi.smul_apply, Pi.sub_apply, Pi.add_apply]
    ring
  · have hkeq : updBit q false k = k := by
      conv_rhs => rw [← updBit_of_testBit q k]
      rw [Bool.not_eq_true] at hb
      rw [hb]
    have outer : applyOp (.h q) (applyOp (.h q) s) k =
        hmul (applyOp (.h q) s (updBit q false k) + applyOp (.h q) s (updBit q true k)) := by
      simp [applyOp, hb]
    rw [outer, inner0, inner1, hmul_add, hmul_hmul, hmul_hmul, hkeq]
    funext i
    simp [Pi.smul_apply, Pi.sub_apply, Pi.add_apply]
    ring

theorem cpAmount_le (neg : Bool) (d : ℕ) : cpAmount neg d ≤ 64 := by
  unfold cpAmount
  have h : 32 / 2 ^ d ≤ 32 := Nat.le_trans (Nat.div_le_self _ _) (by omega)
  cases neg <;> simp <;> omega

theorem applyOp_cp_cancel (c t : ℕ) (d : ℕ) (s : QState) :
    applyOp (.cp c t true d) (applyOp (.cp c t false d) s) = s := by
  funext k
  show applyOp (.cp c t true d) (applyOp (.cp c t false d) s) k = s k
  by_cases hc : (k.testBit c && k.testBit t) = true
  · simp only [applyOp, hc, if_true]
    rw [rotN_rotN, rotN_mod]
    have ha : 32 / 2 ^ d ≤ 32 := Nat.le_trans (Nat.div_le_self _ _) (by omega)
    have h1 : cpAmount true d = (64 - 32 / 2 ^ d) % 64 := rfl
    have h2 : cpAmount false d = 32 / 2 ^ d := rfl
    have hm : (cpAmount true d + cpAmount false d) % 64 = 0 := by
      rw [h1, h2]
      omega
    rw [hm]
    rfl
  · simp [applyOp, hc]

theorem applyOp_cp_comm (c t : ℕ) (n1 : Bool) (d : ℕ) (c' t' : ℕ) (n2 : Bool) (d' : ℕ)
    (s : QState) :
    applyOp (.cp c t n1 d) (applyOp (.cp c' t' n2 d') s) =
      applyOp (.cp c' t' n2 d') (applyOp (.cp c t n1 d) s) := by
  funext k
  by_cases h1 : (k.testBit c && k.testBit t) = true <;>
    by_cases h2 : (k.testBit c' && k.testBit t') = true <;>
      simp [applyOp, h1, h2]
  rw [rotN_rotN, rotN_rotN, Nat.add_comm]

/-- All bits of the swapped index, in closed form. -/
theorem testBit_swapBits (a b k j : ℕ) :
    (swapBits a b k).testBit j =
      if j = a then k.testBit b else if j = b then k.testBit a else k.testBit j := by
  unfold swapBits
  by_cases hja : j = a
  · subst hja
    rw [testBit_updBit_self, if_pos rfl]
  · rw [testBit_updBit_ne hja]
    by_cases hjb : j = b
    · subst hjb
      rw [testBit_updBit_self, if_neg hja, if_pos rfl]
    · rw [testBit_updBit_ne hjb, if_neg hja, if_neg hjb]

theorem swapBits_swapBits (a b k : ℕ) : swapBits a b (swapBits a b k) = k := by
  apply Nat.eq_of_testBit_eq
  intro j
  simp only [testBit_swapBits]
  split_ifs <;> first | rfl | exact congrArg k.testBit (by omega) | omega

theorem applyOp_swap_swap (a b : ℕ) (s : QState) :
    applyOp (.swap a b) (applyOp (.swap a b) s) = s := by
  funext k
  show s (swapBits a b (swapBits a b k)) = s k
  rw [swapBits_swapBits]

/-- Swaps on pairwise distinct qubits commute on indices. -/
theorem swapBits_comm {a b a' b' : ℕ} (h1 : a ≠ a') (h2 : a ≠ b') (h3 : b ≠ a')
    (h4 : b ≠ b') (k : ℕ) :
    swapBits a b (swapBits a' b' k) = swapBits a' b' (swapBits a b k) := by
  apply Nat.eq_of_testBit_eq
  intro j
  simp only [testBit_swapBits]
  split_ifs <;> first | rfl | exact congrArg k.testBit (by omega) | omega

theorem applyOp_swap_comm {a b a' b' : ℕ} (h1 : a ≠ a') (h2 : a ≠ b') (h3 : b ≠ a')
    (h4 : b ≠ b') (s : QState) :
    applyOp (.swap a b) (applyOp (.swap a' b') s) =
      applyOp (.swap a' b') (applyOp (.swap a b) s) := by
  funext k
  show s (swapBits a' b' (swapBits a b k)) = s (swapBits a b (swapBits a' b' k))
  rw [swapBits_comm h1 h2 h3 h4]

/-! QFT round-trip machinery. -/

theorem applyOp_applyGates_comm (g : GateOp) (L : List GateOp)
    (hc : ∀ g' ∈ L, ∀ s, applyOp g (applyOp g' s) = applyOp g' (applyOp g s)) :
    ∀ s : QState, applyOp g (applyGates L s) = applyGates L (applyOp g s) := by
  induction L with
  | nil => intro s; rfl
  | cons g' T ih =>
    intro s
    rw [applyGates_cons, applyGates_cons]
    rw [ih (fun a ha => hc a (List.mem_cons_of_mem _ ha))]
    rw [hc g' (List.mem_cons_self _ _)]

theorem pGroupAux_mem_cp (r m : ℕ) :
    ∀ g ∈ pGroupAux r m, ∃ c t nn d, g = GateOp.cp c t nn d := by
  intro g hg
  rw [pGroupAux, List.mem_map] at hg
  obtain ⟨j, _, rfl⟩ := hg
  exact ⟨j, m, false, m - j, rfl⟩

theorem ipGroupAux_mem_cp (r m : ℕ) :
    ∀ g ∈ ipGroupAux r m, ∃ c t nn d, g = GateOp.cp c t nn d := by
  intro g hg
  rw [ipGroupAux, List.mem_map] at hg
  obtain ⟨j, _, rfl⟩ := hg
  exact ⟨j, m, true, m - j, rfl⟩

theorem applyOp_cp_applyGates_comm (c t : ℕ) (nn : Bool) (d : ℕ) (L : List GateOp)
    (hL : ∀ g ∈ L, ∃ c' t' n' d', g = GateOp.cp c' t' n' d') (s : QState) :
    applyOp (.cp c t nn d) (applyGates L s) = applyGates L (applyOp (.cp c t nn d) s) := by
  apply applyOp_applyGates_comm
  intro g' hg' u
  obtain ⟨c', t', n', d', rfl⟩ := hL g' hg'
  exact applyOp_cp_comm c t nn d c' t' n' d' u

theorem pGroupAux_append (r m : ℕ) :
    pGroupAux (r + 1) m = pGroupAux r m ++ [.cp r m false (m - r)] := by
  unfold pGroupAux
  rw [List.range_succ, List.map_append]
  rfl

theorem ipGroupAux_append (r m : ℕ) :
    ipGroupAux (r + 1) m = ipGroupAux r m ++ [.cp r m true (m - r)] := by
  unfold ipGroupAux
  rw [List.range_succ, List.map_append]
  rfl

/-- The ascending inverse phase ladder undoes the ascending forward phase
ladder (all controlled-phase gates commute, and matching pairs cancel). -/
theorem ipGroupAux_pGroupAux_cancel (r m : ℕ) :
    ∀ s : QState, applyGates (ipGroupAux r m) (applyGates (pGroupAux r m) s) = s := by
  induction r with
  | zero => intro s; rfl
  | succ r ih =>
    intro s
    rw [pGroupAux_append, ipGroupAux_append, applyGates_append, applyGates_append]
    have h1 : applyGates [GateOp.cp r m false (m - r)] (applyGates (pGroupAux r m) s) =
        applyOp (.cp r m false (m - r)) (applyGates (pGroupAux r m) s) := rfl
    have h2 : ∀ u : QState, applyGates [GateOp.cp r m true (m - r)] u =
        applyOp (.cp r m true (m - r)) u := fun u => rfl
    rw [h1, h2]
    rw [← applyOp_cp_applyGates_comm r m false (m - r) (ipGroupAux r m)
      (ipGroupAux_mem_cp r m)]
    rw [ih]
    exact applyOp_cp_cancel r m (m - r) s

/-- part_000 inverse_qft rotation block undoes the standard descending QFT
rotation block for every qubit count. -/
theorem invQftRot_qftRot_cancel (n : ℕ) :
    ∀ s : QState, applyGates (invQftRot n) (applyGates (qftRot n) s) = s := by
  induction n with
  | zero => intro s; rfl
  | succ m ih =>
    intro s
    show applyGates (invQftRot m ++ (ipGroupAux m m ++ [.h m]))
      (applyGates (GateOp.h m :: (pGroupAux m m ++ qftRot m)) s) = s
    rw [applyGates_cons, applyGates_append, applyGates_append, applyGates_append]
    rw [ih]
    have h2 : ∀ u : QState, applyGates [GateOp.h m] u = applyOp (.h m) u := fun u => rfl
    rw [h2, ipGroupAux_pGroupAux_cancel]
    exact applyOp_h_h m s

/-- Applying a list of pairwise-commuting self-inverse gates twice is the
identity. -/
theorem applyGates_twice_id (L : List GateOp)
    (hinv : ∀ g ∈ L, ∀ s, applyOp g (applyOp g s) = s)
    (hcomm : L.Pairwise (fun g g' => ∀ s, applyOp g (applyOp g' s) = applyOp g' (applyOp g s))) :
    ∀ s : QState, applyGates L (applyGates L s) = s := by
  induction L with
  | nil => intro s; rfl
  | cons g T ih =>
    intro s
    rw [List.pairwise_cons] at hcomm
    rw [applyGates_cons, applyGates_cons]
    have hmove : applyOp g (applyGates T (applyOp g s)) =
        applyGates T (applyOp g (applyOp g s)) :=
      applyOp_applyGates_comm g T (fun a ha u => (hcomm.1 a ha u)) _
    rw [hmove]
    rw [hinv g (List.mem_cons_self _ _)]
    exact ih (fun a ha u => hinv a (List.mem_cons_of_mem _ ha) u) hcomm.2 _

theorem swapsL_twice (n : ℕ) :
    ∀ s : QState, applyGates (swapsL n) (applyGates (swapsL n) s) = s := by
  apply applyGates_twice_id
  · intro g hg s
    rw [swapsL, List.mem_map] at hg
    obtain ⟨i, _, rfl⟩ := hg
    exact applyOp_swap_swap _ _ s
  · rw [List.pairwise_iff_getElem]
    intro i j hi hj hij
    simp only [swapsL, List.getElem_map, List.getElem_range, List.length_map,
      List.length_range] at hi hj ⊢
    intro s
    exact applyOp_swap_comm (by omega) (by omega) (by omega) (by omega) s

/-- QFT round trip: the standard descending QFT construction followed by
part_000 inverse_qft is the identity on every amplitude vector. -/
theorem qftStd_roundTrip (n : ℕ) (s : QState) :
    applyGates (invQftGates n) (applyGates (qftStdGates n) s) = s := by
  unfold qftStdGates invQftGates
  rw [applyGates_append, applyGates_append, swapsL_twice]
  exact invQftRot_qftRot_cancel n s

/-! Histogram lemmas. -/

theorem sumVals_bump (l : List (String × ℕ)) (s : String) :
    sumVals (bump l s) = sumVals l + 1 := by
  induction l with
  | nil => rfl
  | cons p t ih =>
    by_cases h : p.1 = s
    · simp [bump, h, sumVals]
      omega
    · simp only [bump, if_neg h]
      simp only [sumVals, List.map_cons, List.sum_cons] at *
      omega

theorem sumVals_foldl_bump (xs : List String) (l : List (String × ℕ)) :
    sumVals (xs.foldl bump l) = sumVals l + xs.length := by
  induction xs generalizing l with
  | nil => simp
  | cons x t ih =>
    rw [List.foldl_cons, ih, sumVals_bump]
    simp
    omega

theorem sumVals_buildCounts (xs : List String) :
    sumVals (buildCounts xs) = xs.length := by
  rw [buildCounts, sumVals_foldl_bump]
  simp [sumVals]

/-- C6: for every execution of a circuit with a requested shot count, the
histogram maps bitstrings to (non-negative, integer) counts whose sum is
exactly the requested shot count, both for the cirq statevector execution and
for the Q# simplified execution. -/
theorem execute_counts_sum_to_shots :
    (∀ (ops : List GateOp) (numQubits repetitions : ℕ) (us : ℕ → ℚ),
      sumVals (execute_circuit ops numQubits repetitions us).counts = repetitions) ∧
    (∀ (gates : List String) (numQubits shots : ℕ) (rand : ℕ → ℕ → Bool),
      sumVals (qsharp_execute_circuit gates numQubits shots rand) = shots) := by
  constructor
  · intro ops numQubits repetitions us
    show sumVals (buildCounts _) = repetitions
    rw [sumVals_buildCounts, List.length_map, List.length_range]
  · intro gates numQubits shots rand
    show sumVals (buildCounts _) = shots
    rw [sumVals_buildCounts, List.length_map, List.length_range]

/-- C8: on a backend failure the QuantumInterface wrappers do not propagate
the error; they return freshly drawn random values in its place (a random bit
pair for create_bell_state, a random key of key_length // 2 bits and a random
error rate for bb84_key_distribution). -/
theorem interface_fallback_substitutes_random :
    (∀ (e : String) (r1 r2 : Bool),
      interface_create_bell_state (.error e) r1 r2 = (r1, r2)) ∧
    (∀ (keyLength : ℕ) (e : String) (bits : List Bool) (r : ℚ),
      interface_bb84 keyLength (.error e) bits r = (bits.take (keyLength / 2), r)) :=
  ⟨fun _ _ _ => rfl, fun _ _ _ _ => rfl⟩

/-- C2: create_quantum_circuit with the unknown token "BOGUS" does not raise:
it silently skips the token, stores a circuit with an empty gate-op list under
id 1, and returns that circuit id. -/
theorem create_circuit_accepts_unknown_token :
    create_quantum_circuit [] "x" 2 ["BOGUS"] =
      ([⟨1, "x", [], 2, ["BOGUS"]⟩], ⟨1, "x", 2, ["BOGUS"]⟩) := by
  decide!

set_option maxHeartbeats 2000000 in
/-- C3: in the teleportation circuit the receiver qubit (bob, qubit 2) is
measured with no classically-conditioned correction applied, and its Born
probability of reading 1 is exactly 1/2, not the probability 1 that faithful
teleportation of the |1>-prepared message would give. -/
theorem teleport_receiver_prob_one_half :
    bornWeight teleportState 3 (fun k => k.testBit 2) = constC (1 / 2) ∧
    constC ((1 : ℚ) / 2) ≠ constC 1 := by
  have htab : ∀ k ∈ Finset.range 8, teleportState k =
      (fun j => if j = 2 then constC (1/2) else if j = 3 then constC (-(1/2))
        else if j = 4 then constC (1/2) else if j = 5 then constC (-(1/2))
        else 0) k := by
    decide!
  constructor
  · unfold bornWeight
    rw [Finset.sum_congr rfl (fun k hk => by rw [htab k hk])]
    decide!
  · decide!

/-- C5 counterexample: build_quantum_circuit binds the single-qubit token at
position 1 to qubit 0, not to qubit 1 mod 3 = 1 as the claimed binding policy
requires. -/
theorem build_circuit_binds_qubit_zero :
    build_quantum_circuit ["H", "X"] = [QcOp.h 0, QcOp.x 0] ∧
    QcOp.x 0 ≠ QcOp.x (1 % 3) := by
  constructor
  · decide!
  · decide!

/-- C5 (amended): the position-based default binding policy holds for the
create_quantum_circuit builders: the token at position i, when single-qubit,
binds to qubit i mod n, and a CNOT token (on registers of at least 2 qubits)
binds control i mod n and target (i mod n + 1) mod n; the circuit op list is
these bindings in token order with unsupported tokens skipped. -/
theorem create_circuit_binding_policy (numQubits i : ℕ) (g : String)
    (hn : 1 ≤ numQubits) :
    (g.toUpper = "H" → tokenOp numQubits i g = some (.h (i % numQubits))) ∧
    (g.toUpper = "X" → tokenOp numQubits i g = some (.x (i % numQubits))) ∧
    (g.toUpper = "Y" → tokenOp numQubits i g = some (.y (i % numQubits))) ∧
    (g.toUpper = "Z" → tokenOp numQubits i g = some (.z (i % numQubits))) ∧
    (g.toUpper = "RZ" → tokenOp numQubits i g = some (.rz (i % numQubits))) ∧
    (g.toUpper = "CNOT" → 2 ≤ numQubits →
      tokenOp numQubits i g =
        some (.cnot (i % numQubits) ((i % numQubits + 1) % numQubits))) ∧
    (∀ gates : List String,
      buildOps numQubits gates =
        gates.enum.filterMap (fun p => tokenOp numQubits p.1 p.2)) := by
  refine ⟨?_, ?_, ?_, ?_, ?_, ?_, fun _ => rfl⟩
  · intro hg
    simp [tokenOp, hg]
  · intro hg
    simp [tokenOp, hg]
  · intro hg
    simp [tokenOp, hg]
  · intro hg
    simp [tokenOp, hg]
  · intro hg
    simp [tokenOp, hg]
  · intro hg h2
    have h2' : 1 < numQubits := by omega
    simp [tokenOp, hg, h2']

/-- C5 amended-claim witness at numQubits = 2, token position 3, token "x". -/
theorem create_circuit_binding_policy_witness :
    tokenOp 2 3 "x" = some (GateOp.x 1) := by
  have h := (create_circuit_binding_policy 2 3 "x" (by norm_num)).2.1
  exact h (by decide!)

/-- Matched-basis BB84 measurements are deterministic: with sender and
receiver using the same basis, the single-shot sample equals the sender bit
for every uniform draw u in [0, 1). -/
theorem bb84_matched_basis_deterministic (bit basis : Bool) (u : ℚ)
    (h0 : 0 ≤ u) (h1 : u < 1) :
    sampleBit (applyGates (bb84Circuit bit basis basis) (basisState 0)) u = bit := by
  cases bit <;> cases basis
  · have hp : outcomeProb (applyGates (bb84Circuit false false false) (basisState 0)) 0
        = 1 := by decide!
    simp [sampleBit, hp, h1]
  · have hp : outcomeProb (applyGates (bb84Circuit false true true) (basisState 0)) 0
        = 1 := by decide!
    simp [sampleBit, hp, h1]
  · have hp : outcomeProb (applyGates (bb84Circuit true false false) (basisState 0)) 0
        = 0 := by decide!
    have hn0 : ¬ u < 0 := not_lt.mpr h0
    simp [sampleBit, hp, hn0]
  · have hp : outcomeProb (applyGates (bb84Circuit true true true) (basisState 0)) 0
        = 0 := by decide!
    have hn0 : ¬ u < 0 := not_lt.mpr h0
    simp [sampleBit, hp, hn0]

/-- C1: on a concrete noiseless run (key_length 1; trial 0 has matching bases,
trial 1 mismatched), the measured bits equal [sender bit 0, whatever trial 1
gives], the sifted key is exactly the sender bit of the matched trial, and yet
the reported error_rate equals the random.uniform(0, 0.05) draw r verbatim for
every r, so a draw such as r = 1/100 reports a nonzero error rate with no
modeled noise source. -/
theorem bb84_error_rate_fabricated :
    (∀ r : ℚ,
      (bb84_key_distribution 1 [false, true] [false, true] [false, false]
        [1/3, 2/3] r).errorRate = r) ∧
    bb84Measure [false, true] [false, true] [false, false] [1/3, 2/3] =
      [false, true] ∧
    (bb84_key_distribution 1 [false, true] [false, true] [false, false]
      [1/3, 2/3] (1/100)).keyBinary = [false] ∧
    (bb84_key_distribution 1 [false, true] [false, true] [false, false]
      [1/3, 2/3] (1/100)).errorRate ≠ 0 := by
  refine ⟨fun r => rfl, by decide!, by decide!, ?_⟩
  have he : (bb84_key_distribution 1 [false, true] [false, true] [false, false]
      [1/3, 2/3] (1/100)).errorRate = 1/100 := rfl
  rw [he]
  norm_num

/-- C4 counterexample: the ascending-order forward QFT of cirqa quantum.py
_apply_qft composed with part_000 inverse_qft is not the identity: on 2 qubits
with initial basis vector at index 1, the round-tripped amplitude at index 1
is (1 - i)/2, whose squared distance from the original amplitude 1 is 1/2,
far outside the 1e-9 tolerance (squared tolerance 1e-18). -/
theorem qft_cirqa_roundTrip_not_identity :
    applyGates (invQftGates 2) (applyGates (cirqaQft 2) (basisState 1)) 1 ≠
      basisState 1 1 ∧
    normSqC (applyGates (invQftGates 2) (applyGates (cirqaQft 2) (basisState 1)) 1 -
      basisState 1 1) = constC (1 / 2) ∧
    ¬ ((1 : ℚ) / 2 ≤ 1 / 10 ^ 18) := by
  have h : applyGates (invQftGates 2) (applyGates (cirqaQft 2) (basisState 1)) 1 =
      ((fun i => if (i : ℕ) = 0 then (1 : ℚ)/2 else if (i : ℕ) = 16 then -(1/2) else 0) :
        Cyc) := by
    decide!
  rw [h]
  refine ⟨by decide!, by decide!, by norm_num⟩

/-- C4 (amended): pairing part_000 inverse_qft with the repository's standard
descending-order QFT construction (quantum_fourier_transform of the part_000
qiskit section) does reproduce every initial amplitude vector exactly, for
every register size up to 6 qubits (the range over which the cyclotomic
embedding of the controlled phases is exact). -/
theorem qft_roundTrip_identity (n : ℕ) (hn : n ≤ 6) (s : QState) :
    applyGates (invQftGates n) (applyGates (qftStdGates n) s) = s :=
  qftStd_roundTrip n s

/-- C4 amended-claim witness on 2 qubits at basis vector 3. -/
theorem qft_roundTrip_identity_witness :
    applyGates (invQftGates 2) (applyGates (qftStdGates 2) (basisState 3)) =
      basisState 3 :=
  qft_roundTrip_identity 2 (by norm_num) (basisState 3)

/-! Quantum random generator interpretation lemmas. -/

theorem parseBinS_bitsToStr (l : List Bool) : parseBinS (bitsToStr l) = parseBinL l := by
  unfold parseBinS bitsToStr parseBinL
  have htl : (String.mk (l.map (fun b => if b then '1' else '0'))).toList =
      l.map (fun b => if b then '1' else '0') := rfl
  rw [htl, List.foldl_map]
  congr 1
  funext acc b
  cases b <;> simp

theorem bitsToStr_length (l : List Bool) : (bitsToStr l).length = l.length := by
  unfold bitsToStr
  have hl : (String.mk (l.map (fun b => if b then '1' else '0'))).length =
      (l.map (fun b => if b then '1' else '0')).length := rfl
  rw [hl, List.length_map]

theorem extendDupL_of_ge (s : List Bool) (target f : ℕ) (h : ¬ s.length < target) :
    extendDupL s target f = s := by
  cases f with
  | zero => rfl
  | succ f => simp [extendDupL, h]

/-- C9 counterexample: quantum_random_generator of qiskit implementation.py at
num_bits = 64 with measured 32-bit string 0...01: the returned binary field is
the 64-character self-duplicated string, whose base-2 value is 2^32 + 1, but
the decimal field is 1 (parsed from only the first 32 characters): the decimal
field does not equal the integer value of the entire bitstring. -/
theorem qrg_capped_decimal_inconsistent :
    (quantum_random_generator_capped 64 (List.replicate 31 false ++ [true])).decimal
      = 1 ∧
    parseBinS (quantum_random_generator_capped 64
      (List.replicate 31 false ++ [true])).binary = 2 ^ 32 + 1 ∧
    (quantum_random_generator_capped 64
      (List.replicate 31 false ++ [true])).binary.length = 64 ∧
    (quantum_random_generator_capped 64 (List.replicate 31 false ++ [true])).decimal
      ≠ parseBinS (quantum_random_generator_capped 64
        (List.replicate 31 false ++ [true])).binary := by
  refine ⟨by decide!, by decide!, by decide!, by decide!⟩

/-- C9 (amended): the binary/decimal/hex interpretation is consistent (the
decimal field is the base-2 value of the entire binary field, the hex field
that value in hexadecimal, the binary field one character per measured qubit,
and the circuit puts H on every qubit) for part_000's
quantum_random_generator at every size, and for the qiskit implementation.py
version whenever num_bits is at most 32 (beyond 32 that version measures only
32 qubits, pads by duplication, and parses only the first 32 characters). -/
theorem qrg_interpretation_consistent (measured : List Bool) (numBits : ℕ) :
    (quantum_random_generator measured).decimal =
      parseBinS (quantum_random_generator measured).binary ∧
    (quantum_random_generator measured).hex =
      toHexUpper (quantum_random_generator measured).decimal ∧
    (quantum_random_generator measured).binary.length = measured.length ∧
    (∀ i < numBits, GateOp.h i ∈ qrgCircuit numBits) ∧
    (numBits ≤ 32 → measured.length = numBits →
      (quantum_random_generator_capped numBits measured).decimal =
        parseBinS (quantum_random_generator_capped numBits measured).binary ∧
      (quantum_random_generator_capped numBits measured).binary.length = numBits) := by
  refine ⟨(parseBinS_bitsToStr measured).symm, rfl, bitsToStr_length measured, ?_, ?_⟩
  · intro i hi
    show GateOp.h i ∈ (List.range numBits).map (fun j => GateOp.h j)
    exact List.mem_map.mpr ⟨i, List.mem_range.mpr hi, rfl⟩
  · intro hnb hm
    have hnl : ¬ measured.length < numBits := by omega
    have hext : extendDupL measured numBits numBits = measured :=
      extendDupL_of_ge measured numBits numBits hnl
    have htake : measured.take numBits = measured := by
      rw [← hm]
      exact List.take_length measured
    have hcap : quantum_random_generator_capped numBits measured =
        { binary := bitsToStr measured
          decimal := parseBinL measured
          hex := toHexUpper (parseBinL measured) } := by
      simp only [quantum_random_generator_capped, hext, htake]
      by_cases h32 : 32 ≤ measured.length
      · have h32' : measured.length = 32 := by omega
        rw [if_pos h32]
        rw [show measured.take 32 = measured by rw [← h32']; exact List.take_length measured]
      · rw [if_neg h32]
    refine ⟨?_, ?_⟩
    · rw [hcap]
      exact (parseBinS_bitsToStr measured).symm
    · rw [hcap]
      show (bitsToStr measured).length = numBits
      rw [bitsToStr_length, hm]

/-- C9 amended-claim witness at measured = [true, false], num_bits = 2. -/
theorem qrg_interpretation_consistent_witness :
    (quantum_random_generator [true, false]).decimal =
      parseBinS (quantum_random_generator [true, false]).binary ∧
    (quantum_random_generator_capped 2 [true, false]).decimal =
      parseBinS (quantum_random_generator_capped 2 [true, false]).binary :=
  ⟨(qrg_interpretation_consistent [true, false] 2).1,
   ((qrg_interpretation_consistent [true, false] 2).2.2.2.2 (by norm_num) rfl).1⟩

/-- C7 counterexample: on tied counts the reported most-likely outcome is not
the lexicographically smallest maximal bitstring but the first-inserted one,
and two count dicts equal as maps but built in different insertion orders give
different reports. -/
theorem most_likely_tiebreak_counterexample :
    buildCounts ["1", "0"] = [("1", 1), ("0", 1)] ∧
    buildCounts ["0", "1"] = [("0", 1), ("1", 1)] ∧
    pyMaxByValue (buildCounts ["1", "0"]) = some "1" ∧
    lexMinAmongMax (buildCounts ["1", "0"]) = some "0" ∧
    pyMaxByValue (buildCounts ["0", "1"]) = some "0" ∧
    (some "1" : Option String) ≠ some "0" := by
  refine ⟨by decide!, by decide!, by decide!, by decide!, by decide!, by decide!⟩

/-- C7 (amended): max(counts, key=counts.get) deterministically returns the
first entry, in dict insertion order, attaining the maximum count: the
selected entry bounds every count, and every entry before it is strictly
smaller. -/
theorem pyMax_first_maximal (t : List (String × ℕ)) :
    ∀ p : String × ℕ,
    ∃ pre e post, p :: t = pre ++ e :: post ∧
      pyMaxByValue (p :: t) = some e.1 ∧
      (∀ y ∈ p :: t, y.2 ≤ e.2) ∧
      (∀ y ∈ pre, y.2 < e.2) := by
  induction t with
  | nil =>
    intro p
    exact ⟨[], p, [], rfl, rfl, by simp, by simp⟩
  | cons q t' ih =>
    intro p
    by_cases hlt : p.2 < q.2
    · obtain ⟨pre, e, post, hdecomp, hmax, hall, hpre⟩ := ih q
      have hqe : q.2 ≤ e.2 := hall q (List.mem_cons_self _ _)
      refine ⟨p :: pre, e, post, ?_, ?_, ?_, ?_⟩
      · rw [List.cons_append, ← hdecomp]
      · show some (pyMaxAux p (q :: t')).1 = some e.1
        have hstep : pyMaxAux p (q :: t') = pyMaxAux q t' := by
          show pyMaxAux (if p.2 < q.2 then q else p) t' = pyMaxAux q t'
          rw [if_pos hlt]
        rw [hstep]
        exact hmax
      · intro y hy
        rcases List.mem_cons.mp hy with h | h
        · subst h
          omega
        · exact hall y h
      · intro y hy
        rcases List.mem_cons.mp hy with h | h
        · subst h
          omega
        · exact hpre y h
    · obtain ⟨pre, e, post, hdecomp, hmax, hall, hpre⟩ := ih p
      have hpe : p.2 ≤ e.2 := hall p (List.mem_cons_self _ _)
      have heq : pyMaxByValue (p :: q :: t') = pyMaxByValue (p :: t') := by
        show some (pyMaxAux (if p.2 < q.2 then q else p) t').1 =
          some (pyMaxAux p t').1
        rw [if_neg hlt]
      cases pre with
      | nil =>
        rw [List.nil_append] at hdecomp
        injection hdecomp with h1 h2
        refine ⟨[], e, q :: post, ?_, ?_, ?_, by simp⟩
        · rw [List.nil_append, ← h1, ← h2]
        · rw [heq]
          exact hmax
        · intro y hy
          rcases List.mem_cons.mp hy with h | h
          · subst h
            exact hpe
          · rcases List.mem_cons.mp h with h' | h'
            · subst h'
              omega
            · exact hall y (List.mem_cons_of_mem _ h')
      | cons p0 pre' =>
        rw [List.cons_append] at hdecomp
        injection hdecomp with h1 h2
        have hp0lt : p.2 < e.2 := by
          have := hpre p0 (List.mem_cons_self _ _)
          rw [h1]
          exact this
        refine ⟨p :: q :: pre', e, post, ?_, ?_, ?_, ?_⟩
        · rw [List.cons_append, List.cons_append, ← h2]
        · rw [heq]
          exact hmax
        · intro y hy
          rcases List.mem_cons.mp hy with h | h
          · subst h
            exact hpe
          · rcases List.mem_cons.mp h with h' | h'
            · subst h'
              omega
            · exact hall y (List.mem_cons_of_mem _ h')
        · intro y hy
          rcases List.mem_cons.mp hy with h | h
          · subst h
            exact hp0lt
          · rcases List.mem_cons.mp h with h' | h'
            · subst h'
              omega
            · exact hpre y (List.mem_cons_of_mem _ h')

/-! Trial-division correctness for shors_algorithm. -/

theorem divOut_spec : ∀ (f n i : ℕ), 2 ≤ i → 1 ≤ n → n ≤ f →
    ∃ k m, divOut i f n = (List.replicate k i, m) ∧ n = i ^ k * m ∧
      ¬ i ∣ m ∧ 1 ≤ m := by
  intro f
  induction f with
  | zero =>
    intro n i _ h1 h2
    omega
  | succ f ih =>
    intro n i hi h1 h2
    by_cases hd : n % i = 0
    · have hdvd : i ∣ n := Nat.dvd_of_mod_eq_zero hd
      have hq1 : 1 ≤ n / i :=
        Nat.div_pos (Nat.le_of_dvd (by omega) hdvd) (by omega)
      have hqf : n / i ≤ f := by
        have hlt : n / i < n := Nat.div_lt_self (by omega) (by omega)
        omega
      obtain ⟨k, m, heq, hmul, hnd, hm1⟩ := ih (n / i) i hi hq1 hqf
      refine ⟨k + 1, m, ?_, ?_, hnd, hm1⟩
      · show divOut i (f + 1) n = _
        simp only [divOut, hd, if_pos]
        rw [heq, List.replicate_succ]
      · have hcancel : i * (n / i) = n := Nat.mul_div_cancel' hdvd
        calc n = i * (n / i) := hcancel.symm
        _ = i * (i ^ k * m) := by rw [hmul]
        _ = i ^ (k + 1) * m := by ring
    · refine ⟨0, n, ?_, by ring, ?_, h1⟩
      · simp [divOut, hd]
      · intro hdvd
        exact hd (Nat.mod_eq_zero_of_dvd hdvd)

theorem sorted_le_replicate (k i : ℕ) : List.Sorted (· ≤ ·) (List.replicate k i) := by
  induction k with
  | zero => simp
  | succ k ih =>
    rw [List.replicate_succ, List.sorted_cons]
    exact ⟨fun b hb => (List.eq_of_mem_replicate hb) ▸ le_refl i, ih⟩

theorem tdLoop_spec : ∀ (f i n : ℕ), 2 ≤ i → 1 ≤ n →
    (∀ j, 2 ≤ j → j < i → ¬ j ∣ n) →
    1 ≤ (tdLoop f i n).2 ∧
    (tdLoop f i n).1.prod * (tdLoop f i n).2 = n ∧
    (∀ p ∈ (tdLoop f i n).1, p.Prime ∧ i ≤ p ∧ p < i + f) ∧
    List.Sorted (· ≤ ·) (tdLoop f i n).1 ∧
    (tdLoop f i n).2 ∣ n ∧
    (∀ j, 2 ≤ j → j < i + f → ¬ j ∣ (tdLoop f i n).2) := by
  intro f
  induction f with
  | zero =>
    intro i n hi h1 hinv
    refine ⟨h1, by simp [tdLoop], by simp [tdLoop], by simp [tdLoop], dvd_refl n, ?_⟩
    intro j hj2 hji
    exact hinv j hj2 (by omega)
  | succ f ih =>
    intro i n hi h1 hinv
    obtain ⟨k, m, hde, hnm, hnd, hm1⟩ := divOut_spec n n i hi h1 le_rfl
    have hmdvd : m ∣ n := ⟨i ^ k, by rw [hnm]; ring⟩
    have hinv' : ∀ j, 2 ≤ j → j < i + 1 → ¬ j ∣ m := by
      intro j hj2 hji hdvd
      by_cases hjy : j = i
      · exact hnd (hjy ▸ hdvd)
      · exact hinv j hj2 (by omega) (hdvd.trans hmdvd)
    obtain ⟨rm1, rprod, rprime, rsort, rdvd, rinv⟩ := ih (i + 1) m (by omega) hm1 hinv'
    have hiprime : 1 ≤ k → i.Prime := by
      intro hk
      have hidvd : i ∣ n := by
        rw [hnm]
        exact Dvd.dvd.mul_right (dvd_pow_self i (by omega)) m
      have hq := Nat.minFac_prime (by omega : i ≠ 1)
      have hqn : i.minFac ∣ n := (Nat.minFac_dvd i).trans hidvd
      have hlow : ¬ (i.minFac < i) := fun hlt => hinv i.minFac hq.two_le hlt hqn
      have hmeq : i.minFac = i :=
        le_antisymm (Nat.minFac_le (by omega)) (not_lt.mp hlow)
      exact hmeq ▸ hq
    have hval : tdLoop (f + 1) i n =
        (List.replicate k i ++ (tdLoop f (i + 1) m).1, (tdLoop f (i + 1) m).2) := by
      show (let d := divOut i n n
        let rest := tdLoop f (i + 1) d.2
        (d.1 ++ rest.1, rest.2)) = _
      rw [hde]
    rw [hval]
    refine ⟨rm1, ?_, ?_, ?_, ?_, ?_⟩
    · rw [List.prod_append, List.prod_replicate]
      calc i ^ k * (tdLoop f (i + 1) m).1.prod * (tdLoop f (i + 1) m).2
          = i ^ k * ((tdLoop f (i + 1) m).1.prod * (tdLoop f (i + 1) m).2) := by ring
      _ = i ^ k * m := by rw [rprod]
      _ = n := hnm.symm
    · intro p hp
      rcases List.mem_append.mp hp with h | h
      · have hpk : p = i := List.eq_of_mem_replicate h
        have hk1 : 1 ≤ k := by
          rcases Nat.eq_zero_or_pos k with h0 | h0
          · rw [h0] at h
            simp at h
          · omega
        subst hpk
        exact ⟨hiprime hk1, le_refl p, by omega⟩
      · obtain ⟨hp1, hp2, hp3⟩ := rprime p h
        exact ⟨hp1, by omega, by omega⟩
    · rw [List.Sorted, List.pairwise_append]
      refine ⟨sorted_le_replicate k i, rsort, ?_⟩
      intro a ha b hb
      have hai : a = i := List.eq_of_mem_replicate ha
      have hbi : i + 1 ≤ b := (rprime b hb).2.1
      omega
    · exact rdvd.trans hmdvd
    · intro j hj2 hji
      exact rinv j hj2 (by omega)

/-- C10: shors_algorithm returns the empty factor list for every N below 2,
and for every N of at least 2 a non-decreasing list of primes, each greater
than 1, whose product is N. -/
theorem shors_algorithm_spec (N : ℤ) :
    (N < 2 → shors_algorithm N = []) ∧
    (2 ≤ N →
      (shors_algorithm N).prod = N.toNat ∧
      (∀ p ∈ shors_algorithm N, p.Prime) ∧
      List.Sorted (· ≤ ·) (shors_algorithm N)) := by
  constructor
  · intro h
    simp [shors_algorithm, h]
  · intro h
    have hge : ¬ N < 2 := by omega
    have hn2 : 2 ≤ N.toNat := by omega
    simp only [shors_algorithm, if_neg hge]
    obtain ⟨rm1, rprod, rprime, rsort, rdvd, rinv⟩ :=
      tdLoop_spec (Nat.sqrt N.toNat - 1) 2 N.toNat (by omega) (by omega)
        (by intro j hj2 hji; omega)
    have hs1 : 1 ≤ Nat.sqrt N.toNat := by
      rw [Nat.le_sqrt]
      omega
    have hub : 2 + (Nat.sqrt N.toNat - 1) = Nat.sqrt N.toNat + 1 := by omega
    by_cases h2 : 1 < (tdLoop (Nat.sqrt N.toNat - 1) 2 N.toNat).2
    · rw [if_pos h2]
      have hr2n : (tdLoop (Nat.sqrt N.toNat - 1) 2 N.toNat).2 ≤ N.toNat :=
        Nat.le_of_dvd (by omega) rdvd
      have hr2p : (tdLoop (Nat.sqrt N.toNat - 1) 2 N.toNat).2.Prime := by
        by_contra hnp
        have hq := Nat.minFac_prime (by omega :
          (tdLoop (Nat.sqrt N.toNat - 1) 2 N.toNat).2 ≠ 1)
        have hsq := Nat.minFac_sq_le_self (by omega) hnp
        have hle : (tdLoop (Nat.sqrt N.toNat - 1) 2 N.toNat).2.minFac ≤
            Nat.sqrt N.toNat := by
          rw [Nat.le_sqrt]
          calc (tdLoop (Nat.sqrt N.toNat - 1) 2 N.toNat).2.minFac *
              (tdLoop (Nat.sqrt N.toNat - 1) 2 N.toNat).2.minFac
              = (tdLoop (Nat.sqrt N.toNat - 1) 2 N.toNat).2.minFac ^ 2 := by ring
          _ ≤ (tdLoop (Nat.sqrt N.toNat - 1) 2 N.toNat).2 := hsq
          _ ≤ N.toNat := hr2n
        exact rinv _ hq.two_le (by omega) (Nat.minFac_dvd _)
      have hr2big : Nat.sqrt N.toNat <
          (tdLoop (Nat.sqrt N.toNat - 1) 2 N.toNat).2 := by
        by_contra hle2
        push_neg at hle2
        exact rinv _ (by omega) (by omega) dvd_rfl
      refine ⟨?_, ?_, ?_⟩
      · rw [List.prod_append, List.prod_singleton]
        exact rprod
      · intro p hp
        rcases List.mem_append.mp hp with hm | hm
        · exact (rprime p hm).1
        · rw [List.mem_singleton.mp hm]
          exact hr2p
      · rw [List.Sorted, List.pairwise_append]
        refine ⟨rsort, by simp, ?_⟩
        intro a ha b hb
        rw [List.mem_singleton.mp hb]
        have := (rprime a ha).2.2
        omega
    · rw [if_neg h2]
      have hr2 : (tdLoop (Nat.sqrt N.toNat - 1) 2 N.toNat).2 = 1 := by omega
      rw [hr2, Nat.mul_one] at rprod
      exact ⟨rprod, fun p hp => (rprime p hp).1, rsort⟩

/-- C10 witness at N = 12: the factors are [2, 2, 3]. -/
theorem shors_algorithm_spec_witness :
    shors_algorithm 12 = [2, 2, 3] ∧ (shors_algorithm 12).prod = (12 : ℤ).toNat ∧
    (∀ p ∈ shors_algorithm 12, p.Prime) ∧
    List.Sorted (· ≤ ·) (shors_algorithm 12) := by
  have h := (shors_algorithm_spec 12).2 (by norm_num)
  exact ⟨by decide!, h.1, h.2.1, h.2.2⟩

end QuantumLab
